import Mathlib

/-!
Shallow embedding of the rapina response-cache layer
(`src/rapina/src/cache.rs`) and the pagination extractor
(`src/rapina/src/pagination.rs`), with theorems checking the
natural-language specification against the code.

Modelling conventions:
* `Instant` values are naturals; each backend operation receives the
  current time `now` as an explicit parameter.
* The `DashMap` is modelled sequentially as an association list whose
  keys are distinct for reachable states; the atomic `op_count` is a
  natural field.
* Byte strings (`Bytes`) are `List Nat`; HTTP statuses are `Nat`.
* Rust's byte-lexicographic `&str` order coincides with the
  scalar-value order on the character list of a valid UTF-8 string, so
  string comparison is modelled by a lexicographic order on `List Char`.
-/

namespace Rapina

/-- `CachedResponse` from cache.rs: status, ordered header pairs, body bytes. -/
structure CachedResponse where
  status : Nat
  headers : List (String × String)
  body : List Nat
deriving DecidableEq

/-- `CacheEntry` from cache.rs: response snapshot plus expiry and creation instants. -/
structure CacheEntry where
  response : CachedResponse
  expires_at : Nat
  created_at : Nat
deriving DecidableEq

/-- `CLEANUP_INTERVAL` from cache.rs: run cleanup every 1000 operations. -/
def CLEANUP_INTERVAL : Nat := 1000

/-- Internal TTL marker header name (`CACHE_TTL_HEADER` in cache.rs). -/
def CACHE_TTL_HEADER : String := "x-rapina-cache-ttl"

/-- Public cache-status header name (`CACHE_STATUS_HEADER` in cache.rs). -/
def CACHE_STATUS_HEADER : String := "x-cache"

/-- Sequential model of `InMemoryCache`: the concurrent map is an association
list, `op_count` the operation counter, `max_entries` the capacity bound. -/
structure InMemoryCache where
  entries : List (String × CacheEntry)
  max_entries : Nat
  op_count : Nat
deriving DecidableEq

/-- `InMemoryCache::new`. -/
def InMemoryCache.new (max_entries : Nat) : InMemoryCache :=
  { entries := [], max_entries := max_entries, op_count := 0 }

/-- DashMap lookup: first entry under the key (keys are distinct in
reachable states, so "first" is "the" entry). -/
def lookupKey (key : String) : List (String × CacheEntry) → Option CacheEntry
  | [] => none
  | e :: rest => if e.1 = key then some e.2 else lookupKey key rest

/-- `InMemoryCache::cleanup_expired`: `retain(|_, entry| entry.expires_at > now)`. -/
def cleanup_expired (now : Nat) (l : List (String × CacheEntry)) :
    List (String × CacheEntry) :=
  l.filter (fun e => now < e.2.expires_at)

/-- `InMemoryCache::maybe_cleanup`: bump the op counter; sweep expired
entries when the previous count is a positive multiple of `CLEANUP_INTERVAL`. -/
def maybe_cleanup (now : Nat) (c : InMemoryCache) : InMemoryCache :=
  if 0 < c.op_count ∧ c.op_count % CLEANUP_INTERVAL = 0 then
    { c with op_count := c.op_count + 1, entries := cleanup_expired now c.entries }
  else
    { c with op_count := c.op_count + 1 }

/-- Rust's `Iterator::min_by_key` over `created_at`: the first entry (in
iteration order) with minimal creation timestamp. -/
def minByCreated : List (String × CacheEntry) → Option (String × CacheEntry)
  | [] => none
  | e :: rest =>
    match minByCreated rest with
    | none => some e
    | some m => if m.2.created_at < e.2.created_at then some m else some e

/-- `InMemoryCache::evict_if_full`: if at capacity, first drop expired
entries, and only if still at capacity remove the oldest entry. -/
def evict_if_full (now : Nat) (c : InMemoryCache) : InMemoryCache :=
  if c.entries.length < c.max_entries then c
  else if (cleanup_expired now c.entries).length < c.max_entries then
    { c with entries := cleanup_expired now c.entries }
  else
    match minByCreated (cleanup_expired now c.entries) with
    | none => { c with entries := cleanup_expired now c.entries }
    | some oldest =>
      { c with
        entries := (cleanup_expired now c.entries).filter (fun e => e.1 ≠ oldest.1) }

/-- `InMemoryCache::set` (CacheBackend impl): maybe-cleanup, evict-if-full,
then insert the fresh entry with `expires_at = now + ttl`, replacing any
entry under the same key (DashMap `insert`). -/
def InMemoryCache.set (c : InMemoryCache) (now : Nat) (key : String)
    (response : CachedResponse) (ttl : Nat) : InMemoryCache :=
  let c1 := maybe_cleanup now c
  let c2 := evict_if_full now c1
  { c2 with
    entries :=
      (key, { response := response, expires_at := now + ttl, created_at := now })
        :: c2.entries.filter (fun e => e.1 ≠ key) }

/-- `InMemoryCache::get` (CacheBackend impl): maybe-cleanup, answer with a
clone of the unexpired entry, and remove an expired entry on access
(`remove_if`).  Returns the answer and the successor state. -/
def InMemoryCache.get (c : InMemoryCache) (now : Nat) (key : String) :
    Option CachedResponse × InMemoryCache :=
  let c1 := maybe_cleanup now c
  let result := (lookupKey key c1.entries).bind
    (fun entry => if now < entry.expires_at then some entry.response else none)
  match result with
  | some r => (some r, c1)
  | none =>
    (none,
      { c1 with
        entries := c1.entries.filter (fun e => ¬(e.1 = key ∧ e.2.expires_at ≤ now)) })

/-- Rust `str::starts_with`, via the character-list view. -/
def startsWith (s p : String) : Bool := List.isPrefixOf p.data s.data

/-- `InMemoryCache::invalidate_prefix`: `retain(|key, _| !key.starts_with(p))`. -/
def invalidate_prefix (p : String) (c : InMemoryCache) : InMemoryCache :=
  { c with entries := c.entries.filter (fun e => !(startsWith e.1 p)) }

/-- Lexicographic order on character lists, modelling Rust's `&str` order
(byte order on UTF-8, which agrees with scalar-value order). -/
def leChars : List Char → List Char → Bool
  | [], _ => true
  | _ :: _, [] => false
  | a :: as, b :: bs => if a < b then true else if b < a then false else leChars as bs

/-- Rust `&str` total order used by `params.sort()`. -/
def strLe (a b : String) : Bool := leChars a.data b.data

/-- `Vec::sort` on string slices: the sorted permutation under `strLe`
(unique because the order is antisymmetric, so any correct sort agrees). -/
def sortStrings (l : List String) : List String :=
  List.insertionSort (fun a b => strLe a b = true) l

/-- Rust `str::split('&')`, on the character-list view: split groups at
every separator, keeping empty groups; the empty string yields `[[]]`. -/
def splitOnChar (sep : Char) : List Char → List (List Char)
  | [] => [[]]
  | c :: rest =>
    if c = sep then [] :: splitOnChar sep rest
    else
      match splitOnChar sep rest with
      | [] => [[c]]
      | g :: gs => (c :: g) :: gs

/-- `query.split('&')` as a list of strings. -/
def splitAmp (q : String) : List String :=
  (splitOnChar '&' q.data).map (fun g => String.mk g)

/-- `Vec::join("&")`. -/
def joinAmp : List String → String
  | [] => ""
  | [s] => s
  | s :: rest => s ++ "&" ++ joinAmp (rest)

/-- `build_cache_key` from cache.rs: `GET:` + path, plus `?` + the sorted
`&`-joined query parameters when the query is nonempty. -/
def build_cache_key (path query : String) : String :=
  if query = "" then "GET:" ++ path
  else "GET:" ++ path ++ "?" ++ joinAmp (sortStrings (splitAmp query))

/-- Index of the last occurrence of a character (Rust `str::rfind` for a
one-byte character pattern, expressed in character positions). -/
def lastIdxOf (c : Char) : List Char → Option Nat
  | [] => none
  | x :: xs =>
    match lastIdxOf c xs with
    | some i => some (i + 1)
    | none => if x = c then some 0 else none

/-- `build_invalidation_prefix` from cache.rs:
`path.rfind('/').filter(|&i| i > 0).map(|i| &path[..i]).unwrap_or(path)`,
then prepend `GET:`. -/
def build_invalidation_prefix (path : String) : String :=
  match lastIdxOf '/' path.data with
  | some i => if 0 < i then "GET:" ++ String.mk (path.data.take i) else "GET:" ++ path
  | none => "GET:" ++ path

/-- HTTP methods relevant to the middleware. -/
inductive Method where
  | GET | POST | PUT | DELETE | PATCH | HEAD | OPTIONS
deriving DecidableEq

/-- `is_mutation` from cache.rs. -/
def is_mutation : Method → Bool
  | Method.POST | Method.PUT | Method.DELETE | Method.PATCH => true
  | _ => false

/-- An HTTP response as seen by the middleware (`Response<BoxBody>` with the
body already collected to bytes). -/
structure HttpResponse where
  status : Nat
  headers : List (String × String)
  body : List Nat
deriving DecidableEq

/-- `HeaderMap::get`: first value stored under the name. -/
def headerGet (name : String) : List (String × String) → Option String
  | [] => none
  | h :: rest => if h.1 = name then some h.2 else headerGet name rest

/-- `HeaderMap::remove`: drop every value stored under the name. -/
def removeHeader (name : String) (hs : List (String × String)) :
    List (String × String) :=
  hs.filter (fun h => h.1 ≠ name)

/-- `HeaderMap::insert`: replace any values under the name with the one given. -/
def insertHeader (name value : String) (hs : List (String × String)) :
    List (String × String) :=
  (name, value) :: removeHeader name hs

/-- Rust `u64::from_str`: optional leading `+`, then decimal digits only,
nonempty, and the value must fit in 64 bits. -/
def parseU64 (s : String) : Option Nat :=
  let cs := match s.data with
    | '+' :: rest => rest
    | other => other
  if cs ≠ [] ∧ cs.all Char.isDigit then
    let n := cs.foldl (fun acc c => acc * 10 + (c.toNat - '0'.toNat)) 0
    if n < 2 ^ 64 then some n else none
  else none

/-- `extract_ttl_header` from cache.rs: the marker header's value parsed as
`u64`; a missing or unparseable value counts as absent. -/
def extract_ttl_header (resp : HttpResponse) : Option Nat :=
  (headerGet CACHE_TTL_HEADER resp.headers).bind parseU64

/-- `build_response_from_cache` from cache.rs: a response with the stored
status, headers and body, stamped with the cache-status header. -/
def build_response_from_cache (cached : CachedResponse) (status : String) :
    HttpResponse :=
  { status := cached.status
    headers := insertHeader CACHE_STATUS_HEADER status cached.headers
    body := cached.body }

/-- The GET path of `CacheMiddleware::handle`: serve a hit from the cache,
otherwise run the handler (whose collected response is `handlerResp`) and, if
it carries a parseable TTL marker, store the marker-free snapshot and answer
with the marker replaced by `x-cache: MISS`. -/
def handleGET (now : Nat) (path query : String) (handlerResp : HttpResponse)
    (c : InMemoryCache) : HttpResponse × InMemoryCache :=
  match (c.get now (build_cache_key path query)).1 with
  | some cached =>
    (build_response_from_cache cached "HIT",
      (c.get now (build_cache_key path query)).2)
  | none =>
    match extract_ttl_header handlerResp with
    | some ttl =>
      ({ handlerResp with
          headers := insertHeader CACHE_STATUS_HEADER "MISS"
            (removeHeader CACHE_TTL_HEADER handlerResp.headers) },
        ((c.get now (build_cache_key path query)).2).set now
          (build_cache_key path query)
          (CachedResponse.mk handlerResp.status
            (handlerResp.headers.filter (fun h => h.1 ≠ CACHE_TTL_HEADER))
            handlerResp.body)
          ttl)
    | none => (handlerResp, (c.get now (build_cache_key path query)).2)

/-- `CacheMiddleware::handle`: GET requests take the caching path; other
methods run the handler and, for successful mutations, invalidate by the
path-derived key start. -/
def handle (now : Nat) (method : Method) (path query : String)
    (handlerResp : HttpResponse) (c : InMemoryCache) :
    HttpResponse × InMemoryCache :=
  if method = Method.GET then handleGET now path query handlerResp c
  else
    if is_mutation method = true ∧ 200 ≤ handlerResp.status ∧ handlerResp.status < 300 then
      (handlerResp, invalidate_prefix ( build_invalidation_prefix path) c)
    else (handlerResp, c)

/-- `DEFAULT_PER_PAGE` from pagination.rs. -/
def DEFAULT_PER_PAGE : Nat := 20

/-- `DEFAULT_MAX_PER_PAGE` from pagination.rs. -/
def DEFAULT_MAX_PER_PAGE : Nat := 100

/-- `PaginationConfig` from pagination.rs. -/
structure PaginationConfig where
  default_per_page : Nat
  max_per_page : Nat
deriving DecidableEq

/-- `Error` from error.rs: status code and message. -/
structure Error where
  status : Nat
  message : String
deriving DecidableEq

/-- Modelled from the spec: `Error::validation` is called from pagination.rs
but absent from src/error.rs; per spec §7 ("validation errors return 422
with a structured message") and the unit tests asserting `err.status == 422`,
it builds an `Error` with status 422 and the given message. -/
def Error.validation (msg : String) : Error :=
  { status := 422, message := msg }

/-- `Paginate` from pagination.rs. -/
structure Paginate where
  page : Nat
  per_page : Nat
deriving DecidableEq

/-- `config.map_or(DEFAULT_PER_PAGE, |c| c.default_per_page)`. -/
def config_default_per_page : Option PaginationConfig → Nat
  | some cf => cf.default_per_page
  | none => DEFAULT_PER_PAGE

/-- `config.map_or(DEFAULT_MAX_PER_PAGE, |c| c.max_per_page)`. -/
def config_max_per_page : Option PaginationConfig → Nat
  | some cf => cf.max_per_page
  | none => DEFAULT_MAX_PER_PAGE

/-- `Paginate::from_request_parts` after query deserialization: `pageOpt` and
`perPageOpt` are the parsed optional `page`/`per_page` values, `config` the
optionally registered `PaginationConfig`. -/
def paginate_from_request_parts (pageOpt perPageOpt : Option Nat)
    (config : Option PaginationConfig) : Except Error Paginate :=
  if pageOpt.getD 1 < 1 then
    Except.error (Error.validation "page must be >= 1")
  else if perPageOpt.getD (config_default_per_page config) < 1 then
    Except.error (Error.validation "per_page must be >= 1")
  else if config_max_per_page config
      < perPageOpt.getD (config_default_per_page config) then
    Except.error (Error.validation
      ("per_page must be <= " ++ toString (config_max_per_page config)))
  else
    Except.ok
      { page := pageOpt.getD 1
        per_page := perPageOpt.getD (config_default_per_page config) }

/-- A backend operation of the in-memory cache, for stating invariants over
arbitrary sequential operation sequences. -/
inductive CacheOp where
  | get (now : Nat) (key : String)
  | set (now : Nat) (key : String) (response : CachedResponse) (ttl : Nat)
  | inval (p : String)
deriving DecidableEq

/-- Apply one backend operation to the cache state. -/
def applyOp (op : CacheOp) (c : InMemoryCache) : InMemoryCache :=
  match op with
  | CacheOp.get now key => (c.get now key).2
  | CacheOp.set now key response ttl => c.set now key response ttl
  | CacheOp.inval p => invalidate_prefix p c

/-- Run a sequence of backend operations from a starting state. -/
def runOps (ops : List CacheOp) (c : InMemoryCache) : InMemoryCache :=
  ops.foldl (fun st op => applyOp op st) c

/-- Insert a list of distinct keys one per time unit (`set` at times
`t, t+1, ...`), all with the same response and TTL. -/
def insertAll (t ttl : Nat) (r : CachedResponse) :
    List String → InMemoryCache → InMemoryCache
  | [], c => c
  | k :: ks, c => insertAll (t + 1) ttl r ks (c.set t k r ttl)

/-- The entries created by `insertAll` on keys that trigger no eviction:
latest insertion first, matching the cons-to-front insertion model. -/
def newEntries (t ttl : Nat) (r : CachedResponse) :
    List String → List (String × CacheEntry)
  | [] => []
  | k :: ks =>
    newEntries (t + 1) ttl r ks
      ++ [(k, { response := r, expires_at := t + ttl, created_at := t })]

/-! ### Helper lemmas about the backend operations -/

theorem mem_cleanup_expired {now : Nat} {l : List (String × CacheEntry)}
    {x : String × CacheEntry} :
    x ∈ cleanup_expired now l ↔ x ∈ l ∧ now < x.2.expires_at := by
  simp [cleanup_expired, List.mem_filter]

theorem cleanup_expired_cons_pos {now : Nat} {e : String × CacheEntry}
    {l : List (String × CacheEntry)} (h : now < e.2.expires_at) :
    cleanup_expired now (e :: l) = e :: cleanup_expired now l := by
  simp [cleanup_expired, List.filter_cons, h]

theorem lookupKey_cons_self (key : String) (e : CacheEntry)
    (l : List (String × CacheEntry)) :
    lookupKey key ((key, e) :: l) = some e := by
  simp [lookupKey]

theorem cleanup_expired_of_fresh {now : Nat} {l : List (String × CacheEntry)}
    (h : ∀ x ∈ l, now < x.2.expires_at) : cleanup_expired now l = l := by
  apply List.filter_eq_self.mpr
  intro a ha
  simpa using h a ha

theorem cleanup_expired_length_le (now : Nat) (l : List (String × CacheEntry)) :
    (cleanup_expired now l).length ≤ l.length :=
  List.length_filter_le _ l

theorem maybe_cleanup_opc (now : Nat) (c : InMemoryCache) :
    (maybe_cleanup now c).op_count = c.op_count + 1 := by
  unfold maybe_cleanup; split <;> rfl

theorem maybe_cleanup_max (now : Nat) (c : InMemoryCache) :
    (maybe_cleanup now c).max_entries = c.max_entries := by
  unfold maybe_cleanup; split <;> rfl

theorem maybe_cleanup_entries_cases (now : Nat) (c : InMemoryCache) :
    (maybe_cleanup now c).entries = cleanup_expired now c.entries
      ∨ (maybe_cleanup now c).entries = c.entries := by
  unfold maybe_cleanup; split
  · exact Or.inl rfl
  · exact Or.inr rfl

theorem maybe_cleanup_entries_of_fresh {now : Nat} {c : InMemoryCache}
    (h : ∀ x ∈ c.entries, now < x.2.expires_at) :
    (maybe_cleanup now c).entries = c.entries := by
  rcases maybe_cleanup_entries_cases now c with h1 | h1
  · rw [h1, cleanup_expired_of_fresh h]
  · exact h1

theorem maybe_cleanup_length_le (now : Nat) (c : InMemoryCache) :
    (maybe_cleanup now c).entries.length ≤ c.entries.length := by
  rcases maybe_cleanup_entries_cases now c with h1 | h1 <;> rw [h1]
  exact cleanup_expired_length_le now c.entries

theorem maybe_cleanup_entries_subset {now : Nat} {c : InMemoryCache}
    {x : String × CacheEntry} (h : x ∈ (maybe_cleanup now c).entries) :
    x ∈ c.entries := by
  rcases maybe_cleanup_entries_cases now c with h1 | h1 <;> rw [h1] at h
  · exact (mem_cleanup_expired.mp h).1
  · exact h

theorem lookupKey_eq_none_of_forall_ne {key : String}
    {l : List (String × CacheEntry)} (h : ∀ x ∈ l, x.1 ≠ key) :
    lookupKey key l = none := by
  induction l with
  | nil => rfl
  | cons e rest ih =>
    have he : e.1 ≠ key := h e (List.mem_cons_self e rest)
    rw [lookupKey, if_neg he]
    exact ih fun x hx => h x (List.mem_cons_of_mem e hx)

theorem forall_ne_of_lookupKey_eq_none {key : String}
    {l : List (String × CacheEntry)} (h : lookupKey key l = none) :
    ∀ x ∈ l, x.1 ≠ key := by
  induction l with
  | nil => intro x hx; simp at hx
  | cons e rest ih =>
    intro x hx
    rw [lookupKey] at h
    by_cases he : e.1 = key
    · rw [if_pos he] at h; cases h
    · rw [if_neg he] at h
      rcases List.mem_cons.mp hx with rfl | hxr
      · exact he
      · exact ih h x hxr

theorem lookupKey_filter_eq_none {key : String} {p : String × CacheEntry → Bool}
    {l : List (String × CacheEntry)} (h : lookupKey key l = none) :
    lookupKey key (l.filter p) = none :=
  lookupKey_eq_none_of_forall_ne fun x hx =>
    forall_ne_of_lookupKey_eq_none h x (List.mem_of_mem_filter hx)

theorem filter_ne_key_eq_self {key : String} {l : List (String × CacheEntry)}
    (h : lookupKey key l = none) :
    l.filter (fun e => e.1 ≠ key) = l := by
  apply List.filter_eq_self.mpr
  intro a ha
  simpa using forall_ne_of_lookupKey_eq_none h a ha

theorem minByCreated_eq_none_iff {l : List (String × CacheEntry)} :
    minByCreated l = none ↔ l = [] := by
  cases l with
  | nil => simp [minByCreated]
  | cons e rest =>
    simp only [minByCreated]
    constructor
    · intro h
      split at h
      · cases h
      · split at h <;> cases h
    · intro h; cases h

theorem minByCreated_mem {l : List (String × CacheEntry)}
    {m : String × CacheEntry} (h : minByCreated l = some m) : m ∈ l := by
  induction l with
  | nil => cases h
  | cons e rest ih =>
    rw [minByCreated] at h
    split at h
    · cases h
      exact List.mem_cons_self _ _
    · rename_i m' hm
      split at h
      · injection h with h'
        subst h'
        exact List.mem_cons_of_mem e (ih hm)
      · cases h
        exact List.mem_cons_self _ _

theorem minByCreated_le {l : List (String × CacheEntry)}
    {m : String × CacheEntry} (h : minByCreated l = some m) :
    ∀ x ∈ l, m.2.created_at ≤ x.2.created_at := by
  induction l generalizing m with
  | nil => cases h
  | cons e rest ih =>
    intro x hx
    rw [minByCreated] at h
    split at h
    · rename_i hnone
      cases h
      have : rest = [] := minByCreated_eq_none_iff.mp hnone
      subst this
      rcases List.mem_cons.mp hx with rfl | hxr
      · exact Nat.le_refl _
      · simp at hxr
    · rename_i m' hm
      split at h
      · rename_i hlt
        injection h with h'
        subst h'
        rcases List.mem_cons.mp hx with rfl | hxr
        · exact Nat.le_of_lt hlt
        · exact ih hm x hxr
      · rename_i hnlt
        injection h with h'
        subst h'
        rcases List.mem_cons.mp hx with rfl | hxr
        · exact Nat.le_refl _
        · exact Nat.le_trans (Nat.le_of_not_lt hnlt) (ih hm x hxr)

theorem minByCreated_append_last {L : List (String × CacheEntry)}
    {b : String × CacheEntry}
    (h : ∀ x ∈ L, b.2.created_at < x.2.created_at) :
    minByCreated (L ++ [b]) = some b := by
  induction L with
  | nil => rfl
  | cons e rest ih =>
    have hrest : minByCreated (rest ++ [b]) = some b :=
      ih fun x hx => h x (List.mem_cons_of_mem e hx)
    rw [List.cons_append, minByCreated, hrest]
    show (if b.2.created_at < e.2.created_at then some b else some e) = some b
    exact if_pos (h e (List.mem_cons_self e rest))

theorem evict_if_full_max (now : Nat) (c : InMemoryCache) :
    (evict_if_full now c).max_entries = c.max_entries := by
  unfold evict_if_full
  split
  · rfl
  · split
    · rfl
    · split <;> rfl

theorem evict_if_full_opc (now : Nat) (c : InMemoryCache) :
    (evict_if_full now c).op_count = c.op_count := by
  unfold evict_if_full
  split
  · rfl
  · split
    · rfl
    · split <;> rfl

theorem evict_if_full_subset {now : Nat} {c : InMemoryCache}
    {x : String × CacheEntry} (h : x ∈ (evict_if_full now c).entries) :
    x ∈ c.entries := by
  unfold evict_if_full at h
  split at h
  · exact h
  · split at h
    · exact (mem_cleanup_expired.mp h).1
    · split at h
      · exact (mem_cleanup_expired.mp h).1
      · exact (mem_cleanup_expired.mp (List.mem_of_mem_filter h)).1

theorem evict_if_full_length_le (now : Nat) (c : InMemoryCache) :
    (evict_if_full now c).entries.length ≤ c.entries.length := by
  unfold evict_if_full
  split
  · exact Nat.le_refl _
  · split
    · exact cleanup_expired_length_le now c.entries
    · split
      · exact cleanup_expired_length_le now c.entries
      · exact Nat.le_trans (List.length_filter_le _ _)
          (cleanup_expired_length_le now c.entries)

theorem set_entries_eq (c : InMemoryCache) (now : Nat) (key : String)
    (r : CachedResponse) (ttl : Nat) :
    (c.set now key r ttl).entries
      = (key, { response := r, expires_at := now + ttl, created_at := now })
          :: (evict_if_full now (maybe_cleanup now c)).entries.filter
              (fun e => e.1 ≠ key) := rfl

theorem set_max (c : InMemoryCache) (now : Nat) (key : String)
    (r : CachedResponse) (ttl : Nat) :
    (c.set now key r ttl).max_entries = c.max_entries := by
  show (evict_if_full now (maybe_cleanup now c)).max_entries = c.max_entries
  rw [evict_if_full_max, maybe_cleanup_max]

theorem get_fst_eq (c : InMemoryCache) (now : Nat) (key : String) :
    (c.get now key).1
      = (lookupKey key (maybe_cleanup now c).entries).bind
          (fun entry => if now < entry.expires_at then some entry.response else none) := by
  unfold InMemoryCache.get
  cases hres : (lookupKey key (maybe_cleanup now c).entries).bind
      (fun entry => if now < entry.expires_at then some entry.response else none) <;>
    simp [hres]

theorem get_snd_length_le (c : InMemoryCache) (now : Nat) (key : String) :
    (c.get now key).2.entries.length ≤ c.entries.length := by
  unfold InMemoryCache.get
  cases hres : (lookupKey key (maybe_cleanup now c).entries).bind
      (fun entry => if now < entry.expires_at then some entry.response else none) <;>
    simp only [hres]
  · exact Nat.le_trans (List.length_filter_le _ _) (maybe_cleanup_length_le now c)
  · exact maybe_cleanup_length_le now c

theorem get_snd_max (c : InMemoryCache) (now : Nat) (key : String) :
    (c.get now key).2.max_entries = c.max_entries := by
  unfold InMemoryCache.get
  cases hres : (lookupKey key (maybe_cleanup now c).entries).bind
      (fun entry => if now < entry.expires_at then some entry.response else none) <;>
    simp only [hres]
  · exact maybe_cleanup_max now c
  · exact maybe_cleanup_max now c

/-! ### C1: round-trip -/

/-- C1. Round-trip: for every key `K`, cached response `R` and TTL `T`, after
`InMemoryCache::set(K, R, T)` at time `t1`, a `get(K)` at any time `t2`
strictly before the expiry `t1 + T` returns `Some` of exactly the stored
response — same status, same headers, same body bytes. -/
theorem c1_round_trip (c : InMemoryCache) (key : String) (r : CachedResponse)
    (ttl t1 t2 : Nat) (h : t2 < t1 + ttl) :
    ((c.set t1 key r ttl).get t2 key).1 = some r := by
  rw [get_fst_eq]
  have hlook : lookupKey key (maybe_cleanup t2 (c.set t1 key r ttl)).entries
      = some { response := r, expires_at := t1 + ttl, created_at := t1 } := by
    rcases maybe_cleanup_entries_cases t2 (c.set t1 key r ttl) with h1 | h1 <;>
      rw [h1, set_entries_eq]
    · rw [cleanup_expired_cons_pos h]
      exact lookupKey_cons_self _ _ _
    · exact lookupKey_cons_self _ _ _
  rw [hlook]
  simp [h]

/-- Witness for C1 at a concrete input. -/
theorem c1_round_trip_witness :
    3 < 0 + 10 ∧
      (((InMemoryCache.new 5).set 0 "k"
        { status := 200, headers := [("content-type", "application/json")], body := [1, 2] }
        10).get 3 "k").1
        = some { status := 200, headers := [("content-type", "application/json")], body := [1, 2] } :=
  ⟨by decide, c1_round_trip (InMemoryCache.new 5) "k"
    { status := 200, headers := [("content-type", "application/json")], body := [1, 2] }
    10 0 3 (by decide)⟩

theorem lookupKey_cleanup_eq_none {now : Nat} {key : String}
    {l : List (String × CacheEntry)} (h : lookupKey key l = none) :
    lookupKey key (cleanup_expired now l) = none :=
  lookupKey_filter_eq_none h

theorem lookupKey_cleanup_expired {now : Nat} {key : String}
    {l : List (String × CacheEntry)} (h : (l.map Prod.fst).Nodup) :
    lookupKey key (cleanup_expired now l)
      = (lookupKey key l).bind
          (fun e => if now < e.expires_at then some e else none) := by
  induction l with
  | nil => rfl
  | cons e rest ih =>
    have hh := List.nodup_cons.mp h
    by_cases hexp : now < e.2.expires_at
    · rw [cleanup_expired_cons_pos hexp]
      by_cases he : e.1 = key
      · subst he
        rw [lookupKey_cons_self, lookupKey]
        simp [hexp]
      · rw [lookupKey, if_neg he, lookupKey, if_neg he]
        exact ih hh.2
    · have hdrop : cleanup_expired now (e :: rest) = cleanup_expired now rest := by
        simp [cleanup_expired, List.filter_cons, hexp]
      rw [hdrop]
      by_cases he : e.1 = key
      · subst he
        have hrest : lookupKey e.1 rest = none := by
          apply lookupKey_eq_none_of_forall_ne
          intro x hx hxk
          exact hh.1 (hxk ▸ List.mem_map.mpr ⟨x, hx, rfl⟩)
        rw [lookupKey_cleanup_eq_none hrest, lookupKey]
        simp [hexp]
      · rw [lookupKey, if_neg he]
        exact ih hh.2

/-! ### C2: expiry -/

/-- C2. Expiry: a `get(K)` at a time at or after the stored expiry
`t1 + ttl` returns `None` (no sweep needed — checked on access); and on any
state with distinct keys, `get` answers `Some r` iff the entry under the key
exists and the current time is strictly before its expiry timestamp, with
`r` the stored response. -/
theorem c2_expiry :
    (∀ (c : InMemoryCache) (key : String) (r : CachedResponse) (ttl t1 t2 : Nat),
        t1 + ttl ≤ t2 → ((c.set t1 key r ttl).get t2 key).1 = none)
    ∧ (∀ (c : InMemoryCache) (key : String) (t : Nat) (r : CachedResponse),
        (c.entries.map Prod.fst).Nodup →
        ((c.get t key).1 = some r ↔
          ∃ e, lookupKey key c.entries = some e ∧ t < e.expires_at ∧ r = e.response)) := by
  constructor
  · intro c key r ttl t1 t2 h
    rw [get_fst_eq]
    have hnlt : ¬ t2 < t1 + ttl := Nat.not_lt.mpr h
    have hL : lookupKey key
        ((evict_if_full t1 (maybe_cleanup t1 c)).entries.filter (fun e => e.1 ≠ key))
        = none := by
      apply lookupKey_eq_none_of_forall_ne
      intro x hx
      simpa using List.of_mem_filter hx
    rcases maybe_cleanup_entries_cases t2 (c.set t1 key r ttl) with h1 | h1 <;>
      rw [h1, set_entries_eq]
    · have hdrop : cleanup_expired t2
          ((key, { response := r, expires_at := t1 + ttl, created_at := t1 })
            :: (evict_if_full t1 (maybe_cleanup t1 c)).entries.filter (fun e => e.1 ≠ key))
          = cleanup_expired t2
              ((evict_if_full t1 (maybe_cleanup t1 c)).entries.filter (fun e => e.1 ≠ key)) := by
        simp [cleanup_expired, List.filter_cons, hnlt]
      rw [hdrop, lookupKey_cleanup_eq_none hL]
      rfl
    · rw [lookupKey_cons_self]
      simp [hnlt]
  · intro c key t r h
    rw [get_fst_eq]
    have hcases := maybe_cleanup_entries_cases t c
    have hgoal : ∀ l, l = c.entries ∨ l = cleanup_expired t c.entries →
        ((lookupKey key l).bind
            (fun entry => if t < entry.expires_at then some entry.response else none) = some r ↔
          ∃ e, lookupKey key c.entries = some e ∧ t < e.expires_at ∧ r = e.response) := by
      intro l hl
      have hlk : (lookupKey key l).bind
          (fun entry => if t < entry.expires_at then some entry.response else none)
          = (lookupKey key c.entries).bind
              (fun e => if t < e.expires_at then some e.response else none) := by
        rcases hl with rfl | rfl
        · rfl
        · rw [lookupKey_cleanup_expired h]
          cases hle : lookupKey key c.entries with
          | none => rfl
          | some e =>
            by_cases hexp : t < e.expires_at <;> simp [hexp]
      rw [hlk]
      cases hle : lookupKey key c.entries with
      | none => simp
      | some e =>
        by_cases hexp : t < e.expires_at <;> simp [hexp, eq_comm]
    rcases hcases with h1 | h1
    · exact hgoal _ (Or.inr h1)
    · exact hgoal _ (Or.inl h1)

/-- Witness for C2 at concrete inputs. -/
theorem c2_expiry_witness :
    (0 + 2 ≤ 5 ∧
      (((InMemoryCache.new 3).set 0 "k" (CachedResponse.mk 200 [] [7]) 2).get
        5 "k").1 = none)
    ∧ ((([("k", CacheEntry.mk (CachedResponse.mk 201 [] []) 9 1)].map Prod.fst).Nodup) ∧
        (((InMemoryCache.mk [("k", CacheEntry.mk (CachedResponse.mk 201 [] []) 9 1)]
              4 1).get 3 "k").1
            = some (CachedResponse.mk 201 [] []) ↔
          ∃ e, lookupKey "k" [("k", CacheEntry.mk (CachedResponse.mk 201 [] []) 9 1)]
              = some e ∧
            3 < e.expires_at ∧ CachedResponse.mk 201 [] [] = e.response)) :=
  ⟨⟨by decide, c2_expiry.1 (InMemoryCache.new 3) "k" (CachedResponse.mk 200 [] [7])
      2 0 5 (by decide)⟩,
    ⟨by decide, c2_expiry.2
      (InMemoryCache.mk [("k", CacheEntry.mk (CachedResponse.mk 201 [] []) 9 1)] 4 1)
      "k" 3 (CachedResponse.mk 201 [] []) (by decide)⟩⟩

/-! ### C7: invalidation frame effect -/

/-- C7. Frame effect of prefix invalidation: an entry survives
`invalidate_prefix(P)` iff it was present before and its key does not start
with `P`; capacity and op-counter are untouched; and the spec's examples:
`GET:/users` and `GET:/users/42` match the `GET:/users` invalidation,
`GET:/posts` does not. -/
theorem c7_invalidation_frame :
    (∀ (p : String) (c : InMemoryCache) (k : String) (e : CacheEntry),
        ((k, e) ∈ ( invalidate_prefix p c).entries ↔
          (k, e) ∈ c.entries ∧ startsWith k p = false))
    ∧ (∀ (p : String) (c : InMemoryCache),
        ( invalidate_prefix p c).max_entries = c.max_entries ∧
          ( invalidate_prefix p c).op_count = c.op_count)
    ∧ startsWith "GET:/users" "GET:/users" = true
    ∧ startsWith "GET:/users/42" "GET:/users" = true
    ∧ startsWith "GET:/posts" "GET:/users" = false := by
  refine ⟨?_, ?_, by decide, by decide, by decide⟩
  · intro p c k e
    simp [ invalidate_prefix, List.mem_filter]
  · intro p c
    exact ⟨rfl, rfl⟩

/-! ### C6: mutation-path invalidation -/

/-- C6. Mutation-path invalidation: for POST/PUT/DELETE/PATCH the
middleware returns the handler's response unchanged, invalidates with the
path-derived key start exactly when the status is 2xx, and the derived
invalidation string behaves as specified on `/users/123`, `/users`, `/`. -/
theorem c6_mutation_invalidation :
    (∀ (now : Nat) (method : Method) (path query : String) (resp : HttpResponse)
        (c : InMemoryCache),
        is_mutation method = true →
          (handle now method path query resp c).1 = resp
          ∧ (200 ≤ resp.status ∧ resp.status < 300 →
              (handle now method path query resp c).2 =
                invalidate_prefix ( build_invalidation_prefix path) c)
          ∧ (¬(200 ≤ resp.status ∧ resp.status < 300) →
              (handle now method path query resp c).2 = c))
    ∧ build_invalidation_prefix "/users/123" = "GET:/users"
    ∧ build_invalidation_prefix "/users" = "GET:/users"
    ∧ build_invalidation_prefix "/" = "GET:/" := by
  refine ⟨?_, by decide, by decide, by decide⟩
  intro now method path query resp c hm
  have hne : ¬ method = Method.GET := by
    intro hEq
    subst hEq
    simp [is_mutation] at hm
  refine ⟨?_, ?_, ?_⟩
  · unfold handle
    rw [if_neg hne]
    split <;> rfl
  · intro hs
    unfold handle
    rw [if_neg hne, if_pos ⟨hm, hs.1, hs.2⟩]
  · intro hs
    unfold handle
    rw [if_neg hne, if_neg (fun hcon => hs ⟨hcon.2.1, hcon.2.2⟩)]

/-- Witness for C6 at a concrete input (a 204 POST to `/users/123`). -/
theorem c6_mutation_invalidation_witness :
    is_mutation Method.POST = true
    ∧ (handle 0 Method.POST "/users/123" "" (HttpResponse.mk 204 [] [])
        (InMemoryCache.new 2)).1 = HttpResponse.mk 204 [] []
    ∧ (200 ≤ 204 ∧ 204 < 300)
    ∧ (handle 0 Method.POST "/users/123" "" (HttpResponse.mk 204 [] [])
        (InMemoryCache.new 2)).2
        = invalidate_prefix ( build_invalidation_prefix "/users/123")
            (InMemoryCache.new 2) := by
  have h := c6_mutation_invalidation.1 0 Method.POST "/users/123" ""
    (HttpResponse.mk 204 [] []) (InMemoryCache.new 2) (by decide)
  exact ⟨by decide, h.1, ⟨by decide, by decide⟩, h.2.1 ⟨by decide, by decide⟩⟩

/-! ### C5: cache-key canonicalization -/

theorem leChars_total : ∀ as bs : List Char,
    leChars as bs = true ∨ leChars bs as = true := by
  intro as
  induction as with
  | nil => intro bs; exact Or.inl rfl
  | cons a as ih =>
    intro bs
    cases bs with
    | nil => exact Or.inr rfl
    | cons b bs =>
      rcases lt_trichotomy a b with h | h | h
      · left; simp [leChars, h]
      · subst h
        rcases ih bs with h2 | h2
        · left; simp [leChars, lt_irrefl, h2]
        · right; simp [leChars, lt_irrefl, h2]
      · right; simp [leChars, h]

theorem leChars_antisymm : ∀ as bs : List Char,
    leChars as bs = true → leChars bs as = true → as = bs := by
  intro as
  induction as with
  | nil =>
    intro bs h1 h2
    cases bs with
    | nil => rfl
    | cons b bs => simp [leChars] at h2
  | cons a as ih =>
    intro bs h1 h2
    cases bs with
    | nil => simp [leChars] at h1
    | cons b bs =>
      rcases lt_trichotomy a b with h | h | h
      · simp [leChars, h, lt_asymm h] at h2
      · subst h
        simp [leChars, lt_irrefl] at h1 h2
        rw [ih bs h1 h2]
      · simp [leChars, h, lt_asymm h] at h1

theorem leChars_trans : ∀ as bs cs : List Char,
    leChars as bs = true → leChars bs cs = true → leChars as cs = true := by
  intro as
  induction as with
  | nil => intro bs cs h1 h2; rfl
  | cons a as ih =>
    intro bs cs h1 h2
    cases bs with
    | nil => simp [leChars] at h1
    | cons b bs =>
      cases cs with
      | nil => simp [leChars] at h2
      | cons c cs =>
        rcases lt_trichotomy a b with hab | hab | hab
        · rcases lt_trichotomy b c with hbc | hbc | hbc
          · simp [leChars, lt_trans hab hbc]
          · subst hbc; simp [leChars, hab]
          · simp [leChars, hbc, lt_asymm hbc] at h2
        · subst hab
          simp [leChars, lt_irrefl] at h1
          rcases lt_trichotomy a c with hac | hac | hac
          · simp [leChars, hac]
          · subst hac
            simp [leChars, lt_irrefl] at h2 ⊢
            exact ih bs cs h1 h2
          · simp [leChars, hac, lt_asymm hac] at h2
        · simp [leChars, hab, lt_asymm hab] at h1

theorem strLe_antisymm {a b : String} (h1 : strLe a b = true)
    (h2 : strLe b a = true) : a = b := by
  cases a with
  | mk da =>
    cases b with
    | mk db =>
      have := leChars_antisymm da db h1 h2
      rw [this]

theorem sortStrings_perm (l : List String) : (sortStrings l).Perm l :=
  List.perm_insertionSort _ l

theorem sortStrings_sorted (l : List String) :
    List.Sorted (fun a b => strLe a b = true) (sortStrings l) :=
  @List.sorted_insertionSort String (fun a b => strLe a b = true) _
    ⟨fun a b => leChars_total a.data b.data⟩
    ⟨fun a b c h1 h2 => leChars_trans a.data b.data c.data h1 h2⟩ l

theorem sortStrings_eq_of_perm {l1 l2 : List String} (h : l1.Perm l2) :
    sortStrings l1 = sortStrings l2 :=
  @List.eq_of_perm_of_sorted String (fun a b => strLe a b = true)
    ⟨fun _ _ h1 h2 => strLe_antisymm h1 h2⟩ _ _
    (((sortStrings_perm l1).trans h).trans (sortStrings_perm l2).symm)
    (sortStrings_sorted l1) (sortStrings_sorted l2)

theorem splitOnChar_ne_nil (sep : Char) (cs : List Char) :
    splitOnChar sep cs ≠ [] := by
  cases cs with
  | nil => simp [splitOnChar]
  | cons c rest =>
    rw [splitOnChar]
    split
    · simp
    · split <;> simp

theorem splitOnChar_eq_nil_sing {sep : Char} {cs : List Char}
    (h : splitOnChar sep cs = [[]]) : cs = [] := by
  cases cs with
  | nil => rfl
  | cons c rest =>
    rw [splitOnChar] at h
    split at h
    · have := List.cons.injEq ([] : List Char) (splitOnChar sep rest) [] []
      rw [List.cons.injEq] at h
      exact absurd h.2 (splitOnChar_ne_nil sep rest)
    · split at h
      · rw [List.cons.injEq] at h
        cases h.1
      · rw [List.cons.injEq] at h
        cases h.1

theorem splitAmp_eq_singleton_empty {q : String} (h : splitAmp q = [""]) :
    q = "" := by
  unfold splitAmp at h
  cases hs : splitOnChar '&' q.data with
  | nil => exact absurd hs (splitOnChar_ne_nil _ _)
  | cons g gs =>
    rw [hs] at h
    simp only [List.map_cons, List.cons.injEq] at h
    have hgs : gs = [] := List.map_eq_nil_iff.mp h.2
    have hg : g = [] := by
      simpa using congrArg String.data h.1
    subst hg hgs
    have : q.data = [] := splitOnChar_eq_nil_sing hs
    cases q with
    | mk d => cases this; rfl

/-- C5. Key canonicalization: `build_cache_key` is invariant under any
permutation of the `&`-separated query parameters, and produces
`GET:` + path for an empty query, otherwise `GET:` + path + `?` + the
sorted `&`-joined parameters. -/
theorem c5_key_canonicalization :
    (∀ (path q1 q2 : String), (splitAmp q1).Perm (splitAmp q2) →
        build_cache_key path q1 = build_cache_key path q2)
    ∧ (∀ path : String, build_cache_key path "" = "GET:" ++ path)
    ∧ (∀ (path q : String), q ≠ "" →
        build_cache_key path q
          = "GET:" ++ path ++ "?" ++ joinAmp (sortStrings (splitAmp q))) := by
  refine ⟨?_, ?_, ?_⟩
  · intro path q1 q2 h
    by_cases hq1 : q1 = ""
    · subst hq1
      have hq2 : splitAmp q2 = [""] :=
        List.perm_singleton.mp (show (splitAmp q2).Perm [""] from h.symm)
      rw [splitAmp_eq_singleton_empty hq2]
    · by_cases hq2 : q2 = ""
      · subst hq2
        have hq1' : splitAmp q1 = [""] := List.perm_singleton.mp h
        exact absurd (splitAmp_eq_singleton_empty hq1') hq1
      · unfold build_cache_key
        rw [if_neg hq1, if_neg hq2, sortStrings_eq_of_perm h]
  · intro path
    unfold build_cache_key
    rw [if_pos rfl]
  · intro path q hq
    unfold build_cache_key
    rw [if_neg hq]

/-- Witness for C5 at concrete inputs (the spec's `?b=2&a=1` example). -/
theorem c5_key_canonicalization_witness :
    ((splitAmp "b=2&a=1").Perm (splitAmp "a=1&b=2")
      ∧ build_cache_key "/x" "b=2&a=1" = build_cache_key "/x" "a=1&b=2")
    ∧ (("sort=name&page=1" : String) ≠ ""
      ∧ build_cache_key "/users" "sort=name&page=1"
          = "GET:" ++ "/users" ++ "?" ++ joinAmp (sortStrings (splitAmp "sort=name&page=1"))) :=
  ⟨⟨by decide, c5_key_canonicalization.1 "/x" "b=2&a=1" "a=1&b=2" (by decide)⟩,
    ⟨by decide, c5_key_canonicalization.2.2 "/users" "sort=name&page=1" (by decide)⟩⟩

/-! ### C4: periodic sweep and oldest-first eviction -/

/-- C4. The sweep in `set` runs exactly when the pre-increment operation
counter is a positive multiple of 1000, and then removes every expired entry
from the map; `evict_if_full` removes the entry with the earliest creation
timestamp exactly when the map is still at or above (nonzero) capacity once
expired entries are dropped, and removes no unexpired entry otherwise. -/
theorem c4_periodic_sweep_and_oldest_eviction :
    ∀ (c : InMemoryCache) (now : Nat),
      ((0 < c.op_count ∧ c.op_count % CLEANUP_INTERVAL = 0) →
          (maybe_cleanup now c).entries = cleanup_expired now c.entries)
      ∧ (¬(0 < c.op_count ∧ c.op_count % CLEANUP_INTERVAL = 0) →
          (maybe_cleanup now c).entries = c.entries)
      ∧ (∀ (key : String) (r : CachedResponse) (ttl : Nat) (k : String) (e : CacheEntry),
          (0 < c.op_count ∧ c.op_count % CLEANUP_INTERVAL = 0) →
          e.expires_at ≤ now → k ≠ key →
          (k, e) ∉ (c.set now key r ttl).entries)
      ∧ (0 < c.max_entries →
          c.max_entries ≤ (cleanup_expired now c.entries).length →
          ∃ ke, minByCreated (cleanup_expired now c.entries) = some ke
            ∧ (∀ x ∈ cleanup_expired now c.entries, ke.2.created_at ≤ x.2.created_at)
            ∧ (evict_if_full now c).entries
                = (cleanup_expired now c.entries).filter (fun x => x.1 ≠ ke.1))
      ∧ ((cleanup_expired now c.entries).length < c.max_entries →
          ∀ x ∈ cleanup_expired now c.entries, x ∈ (evict_if_full now c).entries) := by
  intro c now
  refine ⟨?_, ?_, ?_, ?_, ?_⟩
  · intro h
    unfold maybe_cleanup
    rw [if_pos h]
  · intro h
    unfold maybe_cleanup
    rw [if_neg h]
  · intro key r ttl k e hmult hexp hk hmem
    rw [set_entries_eq] at hmem
    rcases List.mem_cons.mp hmem with heq | hmem'
    · exact hk (congrArg Prod.fst heq)
    · have h1 : (k, e) ∈ (evict_if_full now (maybe_cleanup now c)).entries :=
        List.mem_of_mem_filter hmem'
      have h2 : (k, e) ∈ (maybe_cleanup now c).entries := evict_if_full_subset h1
      unfold maybe_cleanup at h2
      rw [if_pos hmult] at h2
      have h3 := (mem_cleanup_expired.mp h2).2
      exact absurd h3 (Nat.not_lt.mpr hexp)
  · intro hpos hge
    have hlen : ¬ c.entries.length < c.max_entries :=
      Nat.not_lt.mpr (Nat.le_trans hge (cleanup_expired_length_le now c.entries))
    have hne : cleanup_expired now c.entries ≠ [] := by
      intro hnil
      rw [hnil] at hge
      simp at hge
      omega
    cases hmin : minByCreated (cleanup_expired now c.entries) with
    | none => exact absurd (minByCreated_eq_none_iff.mp hmin) hne
    | some ke =>
      refine ⟨ke, rfl, minByCreated_le hmin, ?_⟩
      unfold evict_if_full
      rw [if_neg hlen, if_neg (Nat.not_lt.mpr hge), hmin]
  · intro hlt x hx
    unfold evict_if_full
    by_cases h1 : c.entries.length < c.max_entries
    · rw [if_pos h1]
      exact (mem_cleanup_expired.mp hx).1
    · rw [if_neg h1, if_pos hlt]
      exact hx

/-- Witness for C4: sweep at op-count 1000 removes an expired entry during
`set`, and a full two-entry cache evicts its minimum-creation entry. -/
theorem c4_periodic_sweep_and_oldest_eviction_witness :
    ((maybe_cleanup 3
        (InMemoryCache.mk [("old", CacheEntry.mk (CachedResponse.mk 200 [] []) 1 0)] 5 1000)).entries
      = cleanup_expired 3
          (InMemoryCache.mk [("old", CacheEntry.mk (CachedResponse.mk 200 [] []) 1 0)] 5 1000).entries)
    ∧ (("old", CacheEntry.mk (CachedResponse.mk 200 [] []) 1 0) ∉
        ((InMemoryCache.mk [("old", CacheEntry.mk (CachedResponse.mk 200 [] []) 1 0)] 5 1000).set
          3 "new" (CachedResponse.mk 201 [] []) 10).entries)
    ∧ (∃ ke,
        minByCreated (cleanup_expired 3
          (InMemoryCache.mk [("a", CacheEntry.mk (CachedResponse.mk 200 [] []) 10 0),
            ("b", CacheEntry.mk (CachedResponse.mk 200 [] []) 10 1)] 2 7).entries) = some ke
        ∧ (∀ x ∈ cleanup_expired 3
            (InMemoryCache.mk [("a", CacheEntry.mk (CachedResponse.mk 200 [] []) 10 0),
              ("b", CacheEntry.mk (CachedResponse.mk 200 [] []) 10 1)] 2 7).entries,
            ke.2.created_at ≤ x.2.created_at)
        ∧ (evict_if_full 3
            (InMemoryCache.mk [("a", CacheEntry.mk (CachedResponse.mk 200 [] []) 10 0),
              ("b", CacheEntry.mk (CachedResponse.mk 200 [] []) 10 1)] 2 7)).entries
            = (cleanup_expired 3
                (InMemoryCache.mk [("a", CacheEntry.mk (CachedResponse.mk 200 [] []) 10 0),
                  ("b", CacheEntry.mk (CachedResponse.mk 200 [] []) 10 1)] 2 7).entries).filter
                (fun x => x.1 ≠ ke.1)) :=
  ⟨(c4_periodic_sweep_and_oldest_eviction
      (InMemoryCache.mk [("old", CacheEntry.mk (CachedResponse.mk 200 [] []) 1 0)] 5 1000)
      3).1 (by decide),
    (c4_periodic_sweep_and_oldest_eviction
      (InMemoryCache.mk [("old", CacheEntry.mk (CachedResponse.mk 200 [] []) 1 0)] 5 1000)
      3).2.2.1 "new" (CachedResponse.mk 201 [] []) 10 "old"
      (CacheEntry.mk (CachedResponse.mk 200 [] []) 1 0) (by decide) (by decide) (by decide),
    (c4_periodic_sweep_and_oldest_eviction
      (InMemoryCache.mk [("a", CacheEntry.mk (CachedResponse.mk 200 [] []) 10 0),
        ("b", CacheEntry.mk (CachedResponse.mk 200 [] []) 10 1)] 2 7)
      3).2.2.2.1 (by decide) (by decide)⟩

/-! ### C9: pagination validation -/

/-- C9. Pagination extraction: a 422 validation error is returned exactly
when the (defaulted) page is below 1, the (defaulted) per-page is below 1,
or the per-page exceeds the configured maximum (100 with no config); page 0
yields exactly the "page must be >= 1" message; otherwise extraction
succeeds with page defaulting to 1 and per-page to the configured
default (20 with no config). -/
theorem c9_pagination_validation :
    (∀ (pageOpt perPageOpt : Option Nat) (config : Option PaginationConfig),
        ((∃ e, paginate_from_request_parts pageOpt perPageOpt config
            = Except.error e ∧ e.status = 422) ↔
          (pageOpt.getD 1 < 1
            ∨ perPageOpt.getD (config_default_per_page config) < 1
            ∨ config_max_per_page config
                < perPageOpt.getD (config_default_per_page config))))
    ∧ (∀ (perPageOpt : Option Nat) (config : Option PaginationConfig),
        paginate_from_request_parts (some 0) perPageOpt config
          = Except.error (Error.mk 422 "page must be >= 1"))
    ∧ (∀ (pageOpt perPageOpt : Option Nat) (config : Option PaginationConfig),
        1 ≤ pageOpt.getD 1 →
        1 ≤ perPageOpt.getD (config_default_per_page config) →
        perPageOpt.getD (config_default_per_page config) ≤ config_max_per_page config →
        paginate_from_request_parts pageOpt perPageOpt config
          = Except.ok
              (Paginate.mk (pageOpt.getD 1)
                (perPageOpt.getD (config_default_per_page config))))
    ∧ paginate_from_request_parts none none none = Except.ok (Paginate.mk 1 20) := by
  refine ⟨?_, ?_, ?_, rfl⟩
  · intro pageOpt perPageOpt config
    unfold paginate_from_request_parts
    by_cases h1 : pageOpt.getD 1 < 1
    · simp [h1, Error.validation]
    · by_cases h2 : perPageOpt.getD (config_default_per_page config) < 1
      · simp [h1, h2, Error.validation]
      · by_cases h3 : config_max_per_page config
            < perPageOpt.getD (config_default_per_page config)
        · simp [h1, h2, h3, Error.validation]
        · simp [h1, h2, h3]
  · intro perPageOpt config
    unfold paginate_from_request_parts
    rw [if_pos (by simp)]
    rfl
  · intro pageOpt perPageOpt config hp hpp hle
    unfold paginate_from_request_parts
    rw [if_neg (Nat.not_lt.mpr hp), if_neg (Nat.not_lt.mpr hpp),
      if_neg (Nat.not_lt.mpr hle)]

/-- Witness for C9: no params with the spec's custom config
(default 25, max 50) succeed with per_page 25. -/
theorem c9_pagination_validation_witness :
    1 ≤ (none : Option Nat).getD 1
    ∧ 1 ≤ (none : Option Nat).getD (config_default_per_page (some (PaginationConfig.mk 25 50)))
    ∧ (none : Option Nat).getD (config_default_per_page (some (PaginationConfig.mk 25 50)))
        ≤ config_max_per_page (some (PaginationConfig.mk 25 50))
    ∧ paginate_from_request_parts none none (some (PaginationConfig.mk 25 50))
        = Except.ok (Paginate.mk 1 25) :=
  ⟨by decide, by decide, by decide,
    c9_pagination_validation.2.2.1 none none (some (PaginationConfig.mk 25 50))
      (by decide) (by decide) (by decide)⟩

/-! ### C10: capacity-bound invariant -/

theorem set_length_bound (c : InMemoryCache) (now : Nat) (key : String)
    (r : CachedResponse) (ttl : Nat)
    (h : c.entries.length ≤ max c.max_entries 1) :
    (c.set now key r ttl).entries.length ≤ max c.max_entries 1 := by
  rw [set_entries_eq]
  simp only [List.length_cons]
  have hmaxc1 : (maybe_cleanup now c).max_entries = c.max_entries :=
    maybe_cleanup_max now c
  have hlenc1 : (maybe_cleanup now c).entries.length ≤ c.entries.length :=
    maybe_cleanup_length_le now c
  have hev : (evict_if_full now (maybe_cleanup now c)).entries.length + 1
      ≤ max c.max_entries 1 := by
    unfold evict_if_full
    by_cases h1 : (maybe_cleanup now c).entries.length < (maybe_cleanup now c).max_entries
    · rw [if_pos h1]
      rw [hmaxc1] at h1
      exact Nat.le_trans h1 (Nat.le_max_left _ _)
    · rw [if_neg h1]
      by_cases h2 : (cleanup_expired now (maybe_cleanup now c).entries).length
          < (maybe_cleanup now c).max_entries
      · rw [if_pos h2]
        rw [hmaxc1] at h2
        exact Nat.le_trans h2 (Nat.le_max_left _ _)
      · rw [if_neg h2]
        cases hmin : minByCreated (cleanup_expired now (maybe_cleanup now c).entries) with
        | none =>
          have hnil : cleanup_expired now (maybe_cleanup now c).entries = [] :=
            minByCreated_eq_none_iff.mp hmin
          simp [hnil]
        | some ke =>
          have hkemem : ke ∈ cleanup_expired now (maybe_cleanup now c).entries :=
            minByCreated_mem hmin
          have hflt : ((cleanup_expired now (maybe_cleanup now c).entries).filter
              (fun e => e.1 ≠ ke.1)).length
              < (cleanup_expired now (maybe_cleanup now c).entries).length :=
            List.length_filter_lt_length_iff_exists.mpr ⟨ke, hkemem, by simp⟩
          have hcl : (cleanup_expired now (maybe_cleanup now c).entries).length
              ≤ c.entries.length :=
            Nat.le_trans (cleanup_expired_length_le now _) hlenc1
          have := Nat.le_trans h (Nat.le_refl _)
          simp only []
          omega
  have hsub : ((evict_if_full now (maybe_cleanup now c)).entries.filter
      (fun e => e.1 ≠ key)).length
      ≤ (evict_if_full now (maybe_cleanup now c)).entries.length :=
    List.length_filter_le _ _
  omega

theorem applyOp_max (op : CacheOp) (c : InMemoryCache) :
    (applyOp op c).max_entries = c.max_entries := by
  cases op with
  | get now key => exact get_snd_max c now key
  | set now key r ttl => exact set_max c now key r ttl
  | inval p => rfl

theorem applyOp_length_bound (op : CacheOp) (c : InMemoryCache)
    (h : c.entries.length ≤ max c.max_entries 1) :
    (applyOp op c).entries.length ≤ max c.max_entries 1 := by
  cases op with
  | get now key =>
    exact Nat.le_trans (get_snd_length_le c now key) h
  | set now key r ttl => exact set_length_bound c now key r ttl h
  | inval p =>
    exact Nat.le_trans (List.length_filter_le _ _) h

theorem runOps_length_bound : ∀ (ops : List CacheOp) (c : InMemoryCache),
    c.entries.length ≤ max c.max_entries 1 →
    (runOps ops c).entries.length ≤ max c.max_entries 1
      ∧ (runOps ops c).max_entries = c.max_entries := by
  intro ops
  induction ops with
  | nil => intro c h; exact ⟨h, rfl⟩
  | cons op rest ih =>
    intro c h
    have hstep : (applyOp op c).entries.length ≤ max (applyOp op c).max_entries 1 := by
      rw [applyOp_max]
      exact applyOp_length_bound op c h
    have hrest := ih (applyOp op c) hstep
    have hunfold : runOps (op :: rest) c = runOps rest (applyOp op c) := rfl
    rw [hunfold]
    rw [applyOp_max op c] at hrest
    exact hrest

/-- C10. Capacity bound: across any sequential sequence of
get/set/invalidate operations from a fresh cache, the number of stored
entries never exceeds `max(max_entries, 1)`; in particular a `set` on a
zero-capacity cache still stores one entry. -/
theorem c10_capacity_bound :
    (∀ (N : Nat) (ops : List CacheOp),
        (runOps ops (InMemoryCache.new N)).entries.length ≤ max N 1)
    ∧ (∀ (now : Nat) (key : String) (r : CachedResponse) (ttl : Nat),
        (applyOp (CacheOp.set now key r ttl) (InMemoryCache.new 0)).entries.length = 1) := by
  constructor
  · intro N ops
    exact (runOps_length_bound ops (InMemoryCache.new N)
      (by simp [InMemoryCache.new])).1
  · intro now key r ttl
    rfl

/-! ### C3: capacity eviction -/

theorem set_opc (c : InMemoryCache) (now : Nat) (key : String)
    (r : CachedResponse) (ttl : Nat) :
    (c.set now key r ttl).op_count = c.op_count + 1 := by
  show (evict_if_full now (maybe_cleanup now c)).op_count = c.op_count + 1
  rw [evict_if_full_opc, maybe_cleanup_opc]

theorem mem_newEntries {t ttl : Nat} {r : CachedResponse} {ks : List String}
    {x : String × CacheEntry} (h : x ∈ newEntries t ttl r ks) :
    x.1 ∈ ks ∧ t ≤ x.2.created_at ∧ x.2.created_at < t + ks.length
      ∧ x.2.expires_at = x.2.created_at + ttl := by
  induction ks generalizing t with
  | nil => simp [newEntries] at h
  | cons k ks ih =>
    rw [newEntries] at h
    rcases List.mem_append.mp h with h1 | h1
    · have hr := ih h1
      refine ⟨List.mem_cons_of_mem _ hr.1, ?_, ?_, hr.2.2.2⟩
      · omega
      · have := hr.2.2.1
        simp only [List.length_cons]
        omega
    · simp only [List.mem_singleton] at h1
      subst h1
      refine ⟨List.mem_cons_self _ _, Nat.le_refl _, ?_, rfl⟩
      simp only [List.length_cons]
      omega

theorem mapfst_newEntries (t ttl : Nat) (r : CachedResponse) (ks : List String) :
    (newEntries t ttl r ks).map Prod.fst = ks.reverse := by
  induction ks generalizing t with
  | nil => rfl
  | cons k ks ih =>
    rw [newEntries, List.map_append, ih, List.reverse_cons]
    rfl

theorem length_newEntries (t ttl : Nat) (r : CachedResponse) (ks : List String) :
    (newEntries t ttl r ks).length = ks.length := by
  induction ks generalizing t with
  | nil => rfl
  | cons k ks ih =>
    rw [newEntries, List.length_append, ih]
    simp

theorem insertAll_append (ttl : Nat) (r : CachedResponse) :
    ∀ (l1 : List String) (t : Nat) (l2 : List String) (c : InMemoryCache),
      insertAll t ttl r (l1 ++ l2) c
        = insertAll (t + l1.length) ttl r l2 (insertAll t ttl r l1 c) := by
  intro l1
  induction l1 with
  | nil => intro t l2 c; simp [insertAll]
  | cons k l1 ih =>
    intro t l2 c
    rw [List.cons_append]
    show insertAll (t + 1) ttl r (l1 ++ l2) (c.set t k r ttl)
      = insertAll (t + (k :: l1).length) ttl r l2 (insertAll (t + 1) ttl r l1 (c.set t k r ttl))
    rw [ih]
    have harith : t + 1 + l1.length = t + (k :: l1).length := by
      simp only [List.length_cons]
      omega
    rw [harith]

theorem insertAll_fill : ∀ (ks : List String) (t ttl : Nat) (r : CachedResponse)
    (c : InMemoryCache),
    ks.Nodup →
    (∀ k ∈ ks, lookupKey k c.entries = none) →
    c.entries.length + ks.length ≤ c.max_entries →
    (∀ x ∈ c.entries, t + ks.length ≤ x.2.expires_at) →
    ks.length ≤ ttl →
    (insertAll t ttl r ks c).entries = newEntries t ttl r ks ++ c.entries
      ∧ (insertAll t ttl r ks c).op_count = c.op_count + ks.length
      ∧ (insertAll t ttl r ks c).max_entries = c.max_entries := by
  intro ks
  induction ks with
  | nil =>
    intro t ttl r c _ _ _ _ _
    exact ⟨by simp [insertAll, newEntries], by simp [insertAll], rfl⟩
  | cons k ks ih =>
    intro t ttl r c hnodup hdisj hfit hfresh httl
    have hnd := List.nodup_cons.mp hnodup
    have hfresh_t : ∀ x ∈ c.entries, t < x.2.expires_at := by
      intro x hx
      have := hfresh x hx
      simp only [List.length_cons] at this
      omega
    have hmc_entries : (maybe_cleanup t c).entries = c.entries :=
      maybe_cleanup_entries_of_fresh hfresh_t
    have hlt : (maybe_cleanup t c).entries.length < (maybe_cleanup t c).max_entries := by
      rw [hmc_entries, maybe_cleanup_max]
      simp only [List.length_cons] at hfit
      omega
    have hev : evict_if_full t (maybe_cleanup t c) = maybe_cleanup t c := by
      unfold evict_if_full
      rw [if_pos hlt]
    have hset_entries : (c.set t k r ttl).entries
        = (k, CacheEntry.mk r (t + ttl) t) :: c.entries := by
      rw [set_entries_eq, hev, hmc_entries,
        filter_ne_key_eq_self (hdisj k (List.mem_cons_self k ks))]
    have hset_max : (c.set t k r ttl).max_entries = c.max_entries := set_max c t k r ttl
    have hdisj' : ∀ k' ∈ ks, lookupKey k' (c.set t k r ttl).entries = none := by
      intro k' hk'
      rw [hset_entries, lookupKey]
      have hkk' : ¬ (k, CacheEntry.mk r (t + ttl) t).1 = k' := by
        intro hEq
        apply hnd.1
        have hkeq : k = k' := hEq
        rw [hkeq]
        exact hk'
      rw [if_neg hkk']
      exact hdisj k' (List.mem_cons_of_mem _ hk')
    have hfit' : (c.set t k r ttl).entries.length + ks.length
        ≤ (c.set t k r ttl).max_entries := by
      rw [hset_entries, hset_max]
      simp only [List.length_cons] at hfit ⊢
      omega
    have hfresh' : ∀ x ∈ (c.set t k r ttl).entries,
        (t + 1) + ks.length ≤ x.2.expires_at := by
      intro x hx
      rw [hset_entries] at hx
      rcases List.mem_cons.mp hx with rfl | hxr
      · show t + 1 + ks.length ≤ t + ttl
        simp only [List.length_cons] at httl
        omega
      · have := hfresh x hxr
        simp only [List.length_cons] at this
        omega
    have httl' : ks.length ≤ ttl := by
      simp only [List.length_cons] at httl
      omega
    have hres := ih (t + 1) ttl r (c.set t k r ttl) hnd.2 hdisj' hfit' hfresh' httl'
    have hstep : insertAll t ttl r (k :: ks) c
        = insertAll (t + 1) ttl r ks (c.set t k r ttl) := rfl
    refine ⟨?_, ?_, ?_⟩
    · rw [hstep, hres.1, hset_entries, newEntries, List.append_assoc]
      rfl
    · rw [hstep, hres.2.1, set_opc]
      simp only [List.length_cons]
      omega
    · rw [hstep, hres.2.2, hset_max]

/-- C3. Capacity eviction: with capacity `N ≥ 1`, sequentially inserting
`N + 1` distinct keys (`ks0` then `kN`, one per time unit, TTLs outlasting
the whole run) into a fresh cache leaves exactly `N` entries, and the
evicted key is the head of `ks0` — the entry with the earliest creation
timestamp among the (unexpired) entries at eviction time. -/
theorem c3_capacity_eviction (N ttl : Nat) (r : CachedResponse)
    (ks0 : List String) (kN : String)
    (hN : 1 ≤ N) (httl : N < ttl) (hlen : ks0.length = N)
    (hnodup : (ks0 ++ [kN]).Nodup) :
    (insertAll 0 ttl r (ks0 ++ [kN]) (InMemoryCache.new N)).entries.map Prod.fst
      = kN :: ks0.tail.reverse
    ∧ (insertAll 0 ttl r (ks0 ++ [kN]) (InMemoryCache.new N)).entries.length = N := by
  subst hlen
  obtain ⟨hnd0, _, hdisj0⟩ := List.nodup_append.mp hnodup
  have hkN : kN ∉ ks0 := fun hmem => hdisj0 hmem (List.mem_singleton.mpr rfl)
  rw [insertAll_append]
  have hfill := insertAll_fill ks0 0 ttl r (InMemoryCache.new ks0.length) hnd0
    (fun k _ => rfl) (by simp [InMemoryCache.new]) (by intro x hx; simp [InMemoryCache.new] at hx)
    (by omega)
  have hs1_entries : (insertAll 0 ttl r ks0 (InMemoryCache.new ks0.length)).entries
      = newEntries 0 ttl r ks0 := by
    rw [hfill.1]
    simp [InMemoryCache.new]
  have hs1_max : (insertAll 0 ttl r ks0 (InMemoryCache.new ks0.length)).max_entries
      = ks0.length := hfill.2.2
  set s1 := insertAll 0 ttl r ks0 (InMemoryCache.new ks0.length) with hs1def
  have hstep : insertAll (0 + ks0.length) ttl r [kN] s1
      = s1.set (0 + ks0.length) kN r ttl := rfl
  rw [hstep]
  have htN : 0 + ks0.length = ks0.length := Nat.zero_add _
  rw [htN]
  -- every stored entry is still unexpired at the eviction time
  have hfreshN : ∀ x ∈ s1.entries, ks0.length < x.2.expires_at := by
    intro x hx
    rw [hs1_entries] at hx
    have hp := mem_newEntries hx
    omega
  have hmc : (maybe_cleanup ks0.length s1).entries = s1.entries :=
    maybe_cleanup_entries_of_fresh hfreshN
  have hclean : cleanup_expired ks0.length (maybe_cleanup ks0.length s1).entries
      = s1.entries := by
    rw [hmc]
    exact cleanup_expired_of_fresh hfreshN
  have hlen1 : (maybe_cleanup ks0.length s1).entries.length = ks0.length := by
    rw [hmc, hs1_entries, length_newEntries]
  have hnotlt : ¬ (maybe_cleanup ks0.length s1).entries.length
      < (maybe_cleanup ks0.length s1).max_entries := by
    rw [hlen1, maybe_cleanup_max, hs1_max]
    omega
  -- decompose ks0
  obtain ⟨k0, rest0, hks0⟩ : ∃ a l, ks0 = a :: l := by
    cases ks0 with
    | nil => simp at hN
    | cons a l => exact ⟨a, l, rfl⟩
  · have hmin : minByCreated s1.entries = some (k0, CacheEntry.mk r (0 + ttl) 0) := by
      rw [hs1_entries, hks0, newEntries]
      apply minByCreated_append_last
      intro x hx
      have hp := mem_newEntries hx
      show 0 < x.2.created_at
      omega
    have hk0rest : k0 ∉ rest0 := by
      rw [hks0] at hnd0
      exact (List.nodup_cons.mp hnd0).1
    have hfilter_k0 : s1.entries.filter (fun e => e.1 ≠ k0) = newEntries 1 ttl r rest0 := by
      rw [hs1_entries, hks0, newEntries, List.filter_append]
      have h1 : List.filter (fun e => e.1 ≠ k0)
          [(k0, CacheEntry.mk r (0 + ttl) 0)] = [] := by
        simp
      have h2 : List.filter (fun e => e.1 ≠ k0) (newEntries 1 ttl r rest0)
          = newEntries 1 ttl r rest0 := by
        apply List.filter_eq_self.mpr
        intro x hx
        have hp := mem_newEntries hx
        simp only [decide_eq_true_eq]
        intro hEq
        exact hk0rest (hEq ▸ hp.1)
      rw [h1, h2, List.append_nil]
    have hev_entries : (evict_if_full ks0.length (maybe_cleanup ks0.length s1)).entries
        = newEntries 1 ttl r rest0 := by
      unfold evict_if_full
      rw [if_neg hnotlt, hclean]
      rw [if_neg (by rw [hs1_entries, length_newEntries, maybe_cleanup_max, hs1_max]; omega),
        hmin]
      exact hfilter_k0
    have hfinal : (s1.set ks0.length kN r ttl).entries
        = (kN, CacheEntry.mk r (ks0.length + ttl) ks0.length) :: newEntries 1 ttl r rest0 := by
      rw [set_entries_eq, hev_entries]
      have hfil : List.filter (fun e => e.1 ≠ kN) (newEntries 1 ttl r rest0)
          = newEntries 1 ttl r rest0 := by
        apply List.filter_eq_self.mpr
        intro x hx
        have hp := mem_newEntries hx
        simp only [decide_eq_true_eq]
        intro hEq
        apply hkN
        rw [hks0]
        exact hEq ▸ List.mem_cons_of_mem k0 hp.1
      rw [hfil]
    constructor
    · rw [hfinal, List.map_cons, mapfst_newEntries, hks0]
      rfl
    · rw [hfinal, List.length_cons, length_newEntries, hks0]
      simp

/-- Witness for C3: capacity 2, inserting "a", "b", "c" leaves "c", "b". -/
theorem c3_capacity_eviction_witness :
    (1 ≤ 2 ∧ 2 < 3 ∧ (["a", "b"] : List String).length = 2
      ∧ ((["a", "b"] : List String) ++ ["c"]).Nodup)
    ∧ (insertAll 0 3 (CachedResponse.mk 200 [] []) (["a", "b"] ++ ["c"])
        (InMemoryCache.new 2)).entries.map Prod.fst = "c" :: (["a", "b"] : List String).tail.reverse
    ∧ (insertAll 0 3 (CachedResponse.mk 200 [] []) (["a", "b"] ++ ["c"])
        (InMemoryCache.new 2)).entries.length = 2 :=
  ⟨⟨by decide, by decide, by decide, by decide⟩,
    (c3_capacity_eviction 2 3 (CachedResponse.mk 200 [] []) ["a", "b"] "c"
      (by decide) (by decide) (by decide) (by decide)).1,
    (c3_capacity_eviction 2 3 (CachedResponse.mk 200 [] []) ["a", "b"] "c"
      (by decide) (by decide) (by decide) (by decide)).2⟩

/-! ### C8: marker stripping -/

/-- Counterexample to C8 as stated: on a cache miss, a handler response
whose `x-rapina-cache-ttl` value does not parse as a `u64` (here `"abc"`)
is returned to the client with the marker header still present. -/
theorem c8_counterexample_marker_leak :
    (CACHE_TTL_HEADER, "abc") ∈
      (handleGET 0 "/p" "" (HttpResponse.mk 200 [(CACHE_TTL_HEADER, "abc")] [])
        (InMemoryCache.new 10)).1.headers := by
  decide

/-- C8 (amended): for a GET whose handler response carries the
`x-rapina-cache-ttl` marker with a value that parses as a `u64`, the
response returned on the populating miss path never contains the marker and
carries `x-cache: MISS`; a hit served from a marker-free cached snapshot
never contains the marker and carries `x-cache: HIT`; and the snapshot the
miss path stores has the marker filtered out of its headers. -/
theorem c8_marker_stripping :
    (∀ (now : Nat) (path query : String) (resp : HttpResponse) (c : InMemoryCache)
        (ttl : Nat),
        (c.get now (build_cache_key path query)).1 = none →
        extract_ttl_header resp = some ttl →
          (∀ v, (CACHE_TTL_HEADER, v) ∉ (handleGET now path query resp c).1.headers)
          ∧ (CACHE_STATUS_HEADER, "MISS") ∈ (handleGET now path query resp c).1.headers)
    ∧ (∀ (now : Nat) (path query : String) (resp : HttpResponse) (c : InMemoryCache)
        (cached : CachedResponse),
        (c.get now (build_cache_key path query)).1 = some cached →
        (∀ v, (CACHE_TTL_HEADER, v) ∉ cached.headers) →
          (∀ v, (CACHE_TTL_HEADER, v) ∉ (handleGET now path query resp c).1.headers)
          ∧ (CACHE_STATUS_HEADER, "HIT") ∈ (handleGET now path query resp c).1.headers)
    ∧ (∀ (now : Nat) (path query : String) (resp : HttpResponse) (c : InMemoryCache)
        (ttl : Nat),
        (c.get now (build_cache_key path query)).1 = none →
        extract_ttl_header resp = some ttl →
        ∀ e, lookupKey (build_cache_key path query)
            ((handleGET now path query resp c).2).entries = some e →
          ∀ v, (CACHE_TTL_HEADER, v) ∉ e.response.headers) := by
  have hne : CACHE_STATUS_HEADER ≠ CACHE_TTL_HEADER := by decide
  refine ⟨?_, ?_, ?_⟩
  · intro now path query resp c ttl hmiss httl
    have hres : (handleGET now path query resp c).1
        = { resp with
            headers := insertHeader CACHE_STATUS_HEADER "MISS"
              (removeHeader CACHE_TTL_HEADER resp.headers) } := by
      unfold handleGET
      rw [hmiss, httl]
    rw [hres]
    constructor
    · intro v hv
      rcases List.mem_cons.mp hv with heq | hv'
      · exact hne (congrArg Prod.fst heq).symm
      · have := List.of_mem_filter (List.mem_of_mem_filter hv')
        simp at this
    · exact List.mem_cons_self _ _
  · intro now path query resp c cached hhit hfree
    have hres : (handleGET now path query resp c).1
        = build_response_from_cache cached "HIT" := by
      unfold handleGET
      rw [hhit]
    rw [hres]
    constructor
    · intro v hv
      unfold build_response_from_cache insertHeader at hv
      rcases List.mem_cons.mp hv with heq | hv'
      · exact hne (congrArg Prod.fst heq).symm
      · exact hfree v (List.mem_of_mem_filter hv')
    · exact List.mem_cons_self _ _
  · intro now path query resp c ttl hmiss httl e he v hv
    have hsnd : (handleGET now path query resp c).2
        = ((c.get now (build_cache_key path query)).2).set now
            (build_cache_key path query)
            (CachedResponse.mk resp.status
              (resp.headers.filter (fun h => h.1 ≠ CACHE_TTL_HEADER))
              resp.body)
            ttl := by
      unfold handleGET
      rw [hmiss, httl]
    rw [hsnd, set_entries_eq, lookupKey_cons_self] at he
    injection he with he'
    subst he'
    have := List.of_mem_filter hv
    simp at this

/-- Witness for C8 (amended) at a concrete miss populating the cache. -/
theorem c8_marker_stripping_witness :
    (((InMemoryCache.new 4).get 0 (build_cache_key "/p" "")).1 = none
      ∧ extract_ttl_header
          (HttpResponse.mk 200 [(CACHE_TTL_HEADER, "60"), ("content-type", "text/plain")] [1])
          = some 60)
    ∧ (∀ v, (CACHE_TTL_HEADER, v) ∉
        (handleGET 0 "/p" ""
          (HttpResponse.mk 200 [(CACHE_TTL_HEADER, "60"), ("content-type", "text/plain")] [1])
          (InMemoryCache.new 4)).1.headers)
    ∧ (CACHE_STATUS_HEADER, "MISS") ∈
        (handleGET 0 "/p" ""
          (HttpResponse.mk 200 [(CACHE_TTL_HEADER, "60"), ("content-type", "text/plain")] [1])
          (InMemoryCache.new 4)).1.headers :=
  ⟨⟨by decide, by decide⟩,
    (c8_marker_stripping.1 0 "/p" ""
      (HttpResponse.mk 200 [(CACHE_TTL_HEADER, "60"), ("content-type", "text/plain")] [1])
      (InMemoryCache.new 4) 60 (by decide) (by decide)).1,
    (c8_marker_stripping.1 0 "/p" ""
      (HttpResponse.mk 200 [(CACHE_TTL_HEADER, "60"), ("content-type", "text/plain")] [1])
      (InMemoryCache.new 4) 60 (by decide) (by decide)).2⟩

end Rapina
